import Mathlib

/-!
A shallow embedding of the segpy repository fragments under verification:
the sample-format registry (`segpy/datatypes.py`), the property-test
strategy library (`test/strategies.py`), and the Catalog subsystem, whose
source file is absent from the tree and is therefore modelled from the
specification.  Definitions are translated from the Python source;
theorems settle the frozen claims about them.
-/

/-- First-match association-list lookup: the semantics of reading a Python
dict whose construction had no key collisions. -/
def findValue {α β : Type} [DecidableEq α] : List (α × β) → α → Option β
  | [], _ => none
  | (k, v) :: rest, k' => if k = k' then some v else findValue rest k'

/-- Last-wins association-list lookup: the semantics of a Python dict built
by a sequence of insertions, where a later insertion of the same key
overwrites the earlier one. -/
def dictLookup {α β : Type} [DecidableEq α] : List (α × β) → α → Option β
  | [], _ => none
  | (k, v) :: rest, k' =>
    match dictLookup rest k' with
    | some w => some w
    | none => if k = k' then some v else none

/-- The entries of `DATA_SAMPLE_FORMAT_TO_SEG_Y_TYPE` in insertion order
(segpy/datatypes.py). -/
def DATA_SAMPLE_FORMAT_ITEMS : List (Int × String) :=
  [(1, "ibm"), (2, "int32"), (3, "int16"), (5, "float32"), (8, "int8")]

/-- `DATA_SAMPLE_FORMAT_TO_SEG_Y_TYPE` as a lookup function. -/
def DATA_SAMPLE_FORMAT_TO_SEG_Y_TYPE (code : Int) : Option String :=
  dictLookup DATA_SAMPLE_FORMAT_ITEMS code

/-- `SEG_Y_TYPE_TO_DATA_SAMPLE_FORMAT`, derived from the forward table by
the dict comprehension swapping keys and values (segpy/datatypes.py). -/
def SEG_Y_TYPE_TO_DATA_SAMPLE_FORMAT (t : String) : Option Int :=
  dictLookup (DATA_SAMPLE_FORMAT_ITEMS.map (fun p => (p.2, p.1))) t

/-- The entries of `SEG_Y_TYPE_TO_CTYPE` in insertion order
(segpy/datatypes.py). -/
def SEG_Y_TYPE_TO_CTYPE_ITEMS : List (String × String) :=
  [("int32", "i"), ("uint32", "I"), ("int16", "h"), ("uint16", "H"),
   ("int8", "b"), ("uint8", "B"), ("float32", "f"), ("ibm", "ibm")]

/-- `SEG_Y_TYPE_TO_CTYPE` as a lookup function. -/
def SEG_Y_TYPE_TO_CTYPE (t : String) : Option String :=
  dictLookup SEG_Y_TYPE_TO_CTYPE_ITEMS t

/-- The internal type names registered in the wire-encoding table. -/
def INTERNAL_TYPE_NAMES : List String := SEG_Y_TYPE_TO_CTYPE_ITEMS.map Prod.fst

/-- `CTYPE_TO_SIZE` (segpy/datatypes.py): byte sizes of the wire tags. -/
def CTYPE_TO_SIZE (c : String) : Option Nat :=
  if c = "i" then some 4
  else if c = "I" then some 4
  else if c = "h" then some 2
  else if c = "H" then some 2
  else if c = "b" then some 1
  else if c = "B" then some 1
  else if c = "f" then some 4
  else if c = "ibm" then some 4
  else none

/-- `size_in_bytes` (segpy/datatypes.py): a dictionary hit returns the size;
a miss raises ValueError with a message naming the unrecognised tag. -/
def size_in_bytes (ctype : String) : Except String Nat :=
  match CTYPE_TO_SIZE ctype with
  | some n => Except.ok n
  | none => Except.error ("No such C-type '" ++ ctype ++ "'")

/-- `PRINTABLE_ASCII_RANGE = (32, 127)` (test/strategies.py). -/
def PRINTABLE_ASCII_RANGE : Int × Int := (32, 127)

/-- `PRINTABLE_ASCII_ALPHABET`: the characters chr(32) .. chr(126), built by
joining map(chr, range(32, 127)) (test/strategies.py). -/
def PRINTABLE_ASCII_ALPHABET : List Char :=
  (List.range 95).map (fun i => Char.ofNat (32 + i))

/-- Python `bytes(x)` for an integer `x`: a sequence of `x` zero bytes;
`.decode('ascii')` keeps the code points unchanged. -/
def bytesOfInt (x : Nat) : List Nat := List.replicate x 0

/-- `multiline_ascii_encodable_text` (test/strategies.py) as a function of
its draws: after drawing `n` from integers(min_num_lines, max_num_lines),
the strategy draws a list `xs` of exactly `n` integers, each from
integers(32, 127), and maps it to the join with a line break of
`bytes(x).decode('ascii')` for each drawn integer `x`.  The result is a
string, modelled here as its list of code points. -/
def multiline_ascii_encodable_text (xs : List Nat) : List Nat :=
  List.intercalate [10] (xs.map bytesOfInt)

/-- A Python `range` object: start, stop, step. -/
structure PyRange where
  start : Int
  stop : Int
  step : Int
deriving DecidableEq

/-- The number of elements of a Python `range` object (what len() returns). -/
def PyRange.size (r : PyRange) : Nat :=
  if 0 < r.step then (((r.stop - r.start) + r.step - 1) / r.step).toNat
  else if r.step < 0 then (((r.start - r.stop) + (-r.step) - 1) / (-r.step)).toNat
  else 0

/-- The elements of a Python `range` object, in iteration order. -/
def PyRange.toList (r : PyRange) : List Int :=
  (List.range r.size).map (fun i => r.start + r.step * Int.ofNat i)

/-- The `min_size` default of the `ranges` strategy (test/strategies.py):
zero when the caller configures none. -/
def ranges_min_size (min_size : Option Int) : Int := min_size.getD 0

/-- The argument validation of the `ranges` strategy (test/strategies.py):
a negative effective `min_size` raises ValueError, and so does a supplied
`max_size` below the effective `min_size`.  On success the effective
`min_size` is returned. -/
def ranges_validate (min_size max_size : Option Int) : Except String Int :=
  let m := ranges_min_size min_size
  if m < 0 then Except.error "min_size for ranges() is negative"
  else
    match max_size with
    | some mx =>
      if mx < m then Except.error "max_size for ranges() is less than min_size"
      else Except.ok m
    | none => Except.ok m

/-- The range built by the `ranges` strategy from its draws (after the
`assume(step != 0)` filter): range(start, start + step * length, step). -/
def ranges_result (start step length : Int) : PyRange :=
  ⟨start, start + step * length, step⟩

/-- Cartesian product of two lists in lexicographic order: the semantics of
itertools.product as consumed by items2d. -/
def productList {α β : Type} : List α → List β → List (α × β)
  | [], _ => []
  | x :: xs, ys => ys.map (fun y => (x, y)) ++ productList xs ys

/-- The record produced by the `items2d` strategy (test/strategies.py). -/
structure Items2D where
  i_range : PyRange
  j_range : PyRange
  items : List ((Int × Int) × Int)

/-- `items2d` (test/strategies.py) as a function of its draws: `i_range`
and `j_range` come from ranges(min_size=1, max_size=size, min_step_value=1),
so their draws satisfy 1 <= length <= size and 1 <= step; `values` is drawn
with exactly len(i_range) * len(j_range) elements; the items dictionary
pairs the Cartesian product of the two ranges with the values. -/
def items2d (iStart iStep iLen jStart jStep jLen : Int) (values : List Int) : Items2D :=
  let ir := ranges_result iStart iStep iLen
  let jr := ranges_result jStart jStep jLen
  ⟨ir, jr, List.zip (productList ir.toList jr.toList) values⟩

/-- Modelled from the spec: `batched` (defined in segpy/util.py, which is
absent from the source tree; spec §4.3, *Batching*) splits a sequence into
consecutive groups of `batch_size` elements in original order; with no
padding value supplied the final group is short when the input length is
not a multiple of the batch size.  A non-positive batch size is invalid
(spaced_ranges only ever uses batch size 2). -/
def batched {α : Type} : List α → Nat → List (List α)
  | [], _ => []
  | _ :: _, 0 => []
  | x :: xs, n + 1 => (x :: xs.take n) :: batched (xs.drop n) (n + 1)
termination_by l _ => l.length
decreasing_by simp only [List.length_drop, List.length_cons]; omega

/-- itertools.accumulate: running sums, with the sum so far carried in `a`. -/
def accFrom (a : Int) : List Int → List Int
  | [] => []
  | x :: xs => (a + x) :: accFrom (a + x) xs

/-- itertools.accumulate as used by spaced_ranges. -/
def accumulate (l : List Int) : List Int := accFrom 0 l

/-- starmap(range, pair) applied to one two-element batch of breakpoints. -/
def pairToRange : List Int → PyRange
  | [a, b] => ⟨a, b, 1⟩
  | _ => ⟨0, 0, 1⟩

/-- `spaced_ranges` (test/strategies.py) as a function of its draws: after
drawing n from integers(min_num_ranges, max_num_ranges), the strategy draws
2*n interval lengths from integers(min_interval, max_interval), accumulates
them into breakpoints, batches the breakpoints in twos and turns each pair
into a range. -/
def spaced_ranges (draws : List Int) : List PyRange :=
  (batched (accumulate draws) 2).map pairToRange

/-- The value-type metadata that `header` introspects on a field: either an
enumerated set of legal VALUES, or a MINIMUM/MAXIMUM numeric range
(test/strategies.py). -/
structure FieldValueType where
  VALUES : Option (List Int)
  MINIMUM : Int
  MAXIMUM : Int

/-- The per-field strategies assembled by `header`. -/
inductive FieldStrat where
  | just (v : Int)
  | sampled_from (vs : List Int)
  | integers (lo hi : Int)
deriving DecidableEq

/-- The strategy `header` derives for an unfixed field from its value type:
sampled_from(sorted(VALUES)) when the type enumerates its legal values and
integers(MINIMUM, MAXIMUM) otherwise (test/strategies.py). -/
def strategyForType (vt : FieldValueType) : FieldStrat :=
  match vt.VALUES with
  | some vs => FieldStrat.sampled_from (List.insertionSort (· ≤ ·) vs)
  | none => FieldStrat.integers vt.MINIMUM vt.MAXIMUM

/-- A header class as `header` sees it: its ordered field names, and each
field's value type. -/
structure HeaderClass where
  ordered_field_names : List String
  value_type : String → FieldValueType

/-- kwargs.pop(name): the first binding of `name`, if any, and the keyword
arguments with that binding removed. -/
def popKw : List (String × Int) → String → Option Int × List (String × Int)
  | [], _ => (none, [])
  | (k, v) :: rest, f =>
    if k = f then (some v, rest)
    else
      let r := popKw rest f
      (r.1, (k, v) :: r.2)

/-- All bindings of a key removed: the cumulative effect of popping a key
from a duplicate-free keyword dictionary. -/
def removeKey (f : String) : List (String × Int) → List (String × Int)
  | [] => []
  | p :: rest => if p.1 = f then removeKey f rest else p :: removeKey f rest

/-- Removing one key per field name, in order. -/
def removeKeys : List String → List (String × Int) → List (String × Int)
  | [], kw => kw
  | f :: fs, kw => removeKeys fs (removeKey f kw)

/-- The field-strategy loop of `header` (test/strategies.py): walk the
ordered field names, fixing a field with just(value) when the caller
supplied it as a keyword argument (popping it), and otherwise deriving its
strategy from the field's value type.  Returns the assembled strategies and
the keyword arguments left unpopped. -/
def headerLoop (hc : HeaderClass) :
    List String → List (String × Int) → List (String × FieldStrat) × List (String × Int)
  | [], kw => ([], kw)
  | f :: fs, kw =>
    let p := popKw kw f
    match p.1 with
    | some v =>
      let r := headerLoop hc fs p.2
      ((f, FieldStrat.just v) :: r.1, r.2)
    | none =>
      let r := headerLoop hc fs p.2
      ((f, strategyForType (hc.value_type f)) :: r.1, r.2)

/-- `header` (test/strategies.py): raises TypeError when keyword-argument
names remain unpopped after all declared fields were processed, and
otherwise yields the assembled field strategies (the final
fixed_dictionaries stage draws every field from its strategy). -/
def header (hc : HeaderClass) (kwargs : List (String × Int)) :
    Except String (List (String × FieldStrat)) :=
  let r := headerLoop hc hc.ordered_field_names kwargs
  if r.2.isEmpty then Except.ok r.1
  else Except.error ("Unrecognised binary header field names "
    ++ String.intercalate ", " (r.2.map Prod.fst))

/-- A concrete header class used to witness the header generator claim. -/
def sampleHeaderClass : HeaderClass :=
  ⟨["f1", "f2"], fun _ => ⟨none, 0, 10⟩⟩

/-- The strategies fixed_dict_of_printable_strings assigns to keys. -/
inductive StrStrategy where
  | text (alphabet : List Char)
  | just (v : String)
deriving DecidableEq

/-- Python dict assignment d[k] = v: replace the first (on a dict, only)
binding in place when the key is already present, append a new binding at
the end otherwise. -/
def dictInsert {β : Type} : List (String × β) → String → β → List (String × β)
  | [], k, v => [(k, v)]
  | p :: rest, k, v =>
    if p.1 = k then (k, v) :: rest else p :: dictInsert rest k v

/-- `fixed_dict_of_printable_strings` (test/strategies.py): a dict mapping
each supplied key to text(alphabet=PRINTABLE_ASCII_ALPHABET), after which
each override keyword is assigned just(its value), overriding a present
binding or extending the dict. -/
def fixed_dict_of_printable_strings (keys : List String)
    (overrides : List (String × String)) : List (String × StrStrategy) :=
  overrides.foldl (fun d p => dictInsert d p.1 (StrStrategy.just p.2))
    (keys.map (fun k => (k, StrStrategy.text PRINTABLE_ASCII_ALPHABET)))

/-- Modelled from the spec: catalog keys (spec §4.4; segpy/catalog.py is
absent from the source tree, so the Catalog subsystem is modelled from the
specification).  The repository exercises plain integer keys and 2-tuple
integer keys. -/
inductive CatKey where
  | ik (i : Int)
  | ijk (i j : Int)
deriving DecidableEq

/-- Modelled from the spec: the five Catalog representation classes of spec
§4.4 as a sum type, each variant carrying exactly the data its lookup
needs: a constant over a regular key range; a regular key range with a
dense value list; a linear (affine) regular 1-D mapping; a 2-D linear
regular mapping over the Cartesian product of two key ranges; and the
arbitrary-dictionary fallback. -/
inductive Catalog where
  | constantOverRange (start step : Int) (count : Nat) (value : Int)
  | regularValues (start step : Int) (count : Nat) (values : List Int)
  | linearRegular (kstart kstep vstart vstep : Int) (count : Nat)
  | linearRegular2d (istart istep : Int) (icount : Nat) (jstart jstep : Int)
      (jcount : Nat) (a b c : Int)
  | dictionary (entries : List (CatKey × Int))
deriving DecidableEq

/-- The index of a key in the arithmetic progression start, start + step,
... of `count` elements: O(1) index arithmetic, none when the key is not
on the progression. -/
def apIndex (start step : Int) (count : Nat) (k : Int) : Option Nat :=
  if step = 0 then none
  else if 0 ≤ (k - start) / step ∧ (k - start) / step < (count : Int) ∧
      start + step * ((k - start) / step) = k then
    some ((k - start) / step).toNat
  else none

/-- The elements of the arithmetic progression. -/
def apList (start step : Int) (count : Nat) : List Int :=
  (List.range count).map (fun i => start + step * Int.ofNat i)

/-- Element i of a dense value list. -/
def nthOpt : List Int → Nat → Option Int
  | [], _ => none
  | x :: _, 0 => some x
  | _ :: xs, n + 1 => nthOpt xs n

/-- Modelled from the spec: Catalog lookup, dispatching on the
representation variant (spec §4.4): progression-membership arithmetic plus
a constant, a dense-array access, an affine evaluation, a 2-D affine
evaluation, or a direct dictionary lookup. -/
def catalogLookup : Catalog → CatKey → Option Int
  | Catalog.constantOverRange s t n v, CatKey.ik k =>
    (apIndex s t n k).map (fun _ => v)
  | Catalog.regularValues s t n vs, CatKey.ik k =>
    (apIndex s t n k).bind (fun i => nthOpt vs i)
  | Catalog.linearRegular ks kt v0 vt n, CatKey.ik k =>
    (apIndex ks kt n k).map (fun i => v0 + vt * Int.ofNat i)
  | Catalog.linearRegular2d s0 t0 n0 s1 t1 n1 a b c, CatKey.ijk i j =>
    match apIndex s0 t0 n0 i, apIndex s1 t1 n1 j with
    | some _, some _ => some (a * i + b * j + c)
    | _, _ => none
  | Catalog.dictionary es, k => findValue es k
  | _, _ => none

/-- Modelled from the spec: Catalog enumeration of all (key, value) pairs,
per representation variant (spec §4.4: a complete, duplicate-free cover of
the original mapping). -/
def catalogItems : Catalog → List (CatKey × Int)
  | Catalog.constantOverRange s t n v =>
    (apList s t n).map (fun k => (CatKey.ik k, v))
  | Catalog.regularValues s t n vs =>
    (List.range n).map (fun i => (CatKey.ik (s + t * Int.ofNat i), (nthOpt vs i).getD 0))
  | Catalog.linearRegular ks kt v0 vt n =>
    (List.range n).map (fun i => (CatKey.ik (ks + kt * Int.ofNat i), v0 + vt * Int.ofNat i))
  | Catalog.linearRegular2d s0 t0 n0 s1 t1 n1 a b c =>
    (productList (apList s0 t0 n0) (apList s1 t1 n1)).map
      (fun p => (CatKey.ijk p.1 p.2, a * p.1 + b * p.2 + c))
  | Catalog.dictionary es => es

/-- Structural sanity of a representation: nonzero steps, a value list of
the declared length, duplicate-free dictionary keys. -/
def catalogWellFormed : Catalog → Bool
  | Catalog.constantOverRange _ t _ _ => t != 0
  | Catalog.regularValues _ t n vs => t != 0 && vs.length == n
  | Catalog.linearRegular _ kt _ _ _ => kt != 0
  | Catalog.linearRegular2d _ t0 _ _ t1 _ _ _ _ => t0 != 0 && t1 != 0
  | Catalog.dictionary es => decide ((es.map Prod.fst).Nodup)

/-- Modelled from the spec: exactness of detection (spec §4.4, "a single
non-conforming pair forces fallback").  A candidate compact representation
is kept only when it is structurally well-formed, reproduces every pair of
the input mapping under lookup, and enumerates exactly the input's key
multiset. -/
def conforms (c : Catalog) (m : List (CatKey × Int)) : Bool :=
  catalogWellFormed c
  && m.all (fun p => catalogLookup c p.1 == some p.2)
  && decide (Multiset.ofList ((catalogItems c).map Prod.fst) =
      Multiset.ofList (m.map Prod.fst))

/-- The integer keys of a mapping, sorted ascending. -/
def sortedIntKeys (m : List (CatKey × Int)) : List Int :=
  List.insertionSort (· ≤ ·)
    (m.filterMap (fun p => match p.1 with
      | CatKey.ik i => some i
      | _ => none))

/-- The common difference inferred from the two smallest keys (1 when there
are fewer than two keys). -/
def inferStep : List Int → Int
  | k0 :: k1 :: _ => k1 - k0
  | _ => 1

/-- Modelled from the spec: the constant-over-regular-keys candidate
(spec §4.4 class 1). -/
def candConstant (m : List (CatKey × Int)) : Catalog :=
  Catalog.constantOverRange ((sortedIntKeys m).headD 0) (inferStep (sortedIntKeys m))
    (sortedIntKeys m).length ((m.map Prod.snd).headD 0)

/-- Modelled from the spec: the linear regular candidate (spec §4.4
class 3), the maximal compaction: value(key) = vstart + index * vstep. -/
def candLinear (m : List (CatKey × Int)) : Catalog :=
  Catalog.linearRegular ((sortedIntKeys m).headD 0) (inferStep (sortedIntKeys m))
    ((findValue m (CatKey.ik ((sortedIntKeys m).headD 0))).getD 0)
    ((findValue m (CatKey.ik ((sortedIntKeys m).getD 1 0))).getD 0 -
      (findValue m (CatKey.ik ((sortedIntKeys m).headD 0))).getD 0)
    (sortedIntKeys m).length

/-- Modelled from the spec: the regular-keys/dense-values candidate
(spec §4.4 class 2). -/
def candRegular (m : List (CatKey × Int)) : Catalog :=
  Catalog.regularValues ((sortedIntKeys m).headD 0) (inferStep (sortedIntKeys m))
    (sortedIntKeys m).length
    ((sortedIntKeys m).map (fun k => (findValue m (CatKey.ik k)).getD 0))

/-- The 2-tuple keys of a mapping. -/
def pairKeys (m : List (CatKey × Int)) : List (Int × Int) :=
  m.filterMap (fun p => match p.1 with
    | CatKey.ijk i j => some (i, j)
    | _ => none)

/-- Modelled from the spec: the 2-D linear regular candidate (spec §4.4
class 4): value(i, j) = a*i + b*j + c, the coefficients derived from
corner values. -/
def candLinear2d (m : List (CatKey × Int)) : Catalog :=
  let is := (List.insertionSort (· ≤ ·) ((pairKeys m).map Prod.fst)).dedup
  let js := (List.insertionSort (· ≤ ·) ((pairKeys m).map Prod.snd)).dedup
  let i0 := is.headD 0
  let t0 := inferStep is
  let j0 := js.headD 0
  let t1 := inferStep js
  let v00 := (findValue m (CatKey.ijk i0 j0)).getD 0
  let v10 := (findValue m (CatKey.ijk (is.getD 1 i0) j0)).getD 0
  let v01 := (findValue m (CatKey.ijk i0 (js.getD 1 j0))).getD 0
  let a := if t0 = 0 then 0 else (v10 - v00) / t0
  let b := if t1 = 0 then 0 else (v01 - v00) / t1
  Catalog.linearRegular2d i0 t0 is.length j0 t1 js.length a b (v00 - a * i0 - b * j0)

/-- Modelled from the spec: CatalogBuilder.create (spec §4.4): analyse the
mapping once, try the compact representation classes from most to least
compact, keep the first whose detection is exact over the whole mapping,
and fall back to an exact dictionary copy otherwise. -/
def CatalogBuilder.create (m : List (CatKey × Int)) : Catalog :=
  match [candConstant m, candLinear m, candRegular m, candLinear2d m].find?
      (fun c => conforms c m) with
  | some c => c
  | none => Catalog.dictionary m

/-- Claim C5: `size_in_bytes` returns the declared byte size for each of the
eight registered wire tags, and for every other tag it fails with an
Invalid-Argument condition whose message names the unrecognised tag. -/
theorem size_in_bytes_size_lookup :
    (size_in_bytes "i" = Except.ok 4 ∧ size_in_bytes "I" = Except.ok 4 ∧
     size_in_bytes "h" = Except.ok 2 ∧ size_in_bytes "H" = Except.ok 2 ∧
     size_in_bytes "b" = Except.ok 1 ∧ size_in_bytes "B" = Except.ok 1 ∧
     size_in_bytes "f" = Except.ok 4 ∧ size_in_bytes "ibm" = Except.ok 4) ∧
    ∀ c : String, c ∉ (["i", "I", "h", "H", "b", "B", "f", "ibm"] : List String) →
      size_in_bytes c = Except.error ("No such C-type '" ++ c ++ "'") := by
  refine ⟨⟨rfl, rfl, rfl, rfl, rfl, rfl, rfl, rfl⟩, ?_⟩
  intro c hc
  simp only [List.mem_cons, List.not_mem_nil, or_false] at hc
  push_neg at hc
  obtain ⟨h1, h2, h3, h4, h5, h6, h7, h8⟩ := hc
  simp [size_in_bytes, CTYPE_TO_SIZE, h1, h2, h3, h4, h5, h6, h7, h8]

/-- Witness for C5: a concrete unregistered tag is rejected with a message
that names it. -/
theorem size_in_bytes_size_lookup_witness :
    size_in_bytes "x" = Except.error ("No such C-type 'x'") :=
  size_in_bytes_size_lookup.2 "x" (by decide)

/-- Claim C6: the sample-format-code-to-type table is injective over its
domain, and the derived reverse table is a true inverse in both
directions. -/
theorem data_sample_format_bijection :
    (∀ a ∈ DATA_SAMPLE_FORMAT_ITEMS.map Prod.fst,
     ∀ b ∈ DATA_SAMPLE_FORMAT_ITEMS.map Prod.fst,
        DATA_SAMPLE_FORMAT_TO_SEG_Y_TYPE a = DATA_SAMPLE_FORMAT_TO_SEG_Y_TYPE b → a = b) ∧
    (∀ a ∈ DATA_SAMPLE_FORMAT_ITEMS.map Prod.fst,
        (DATA_SAMPLE_FORMAT_TO_SEG_Y_TYPE a).bind SEG_Y_TYPE_TO_DATA_SAMPLE_FORMAT = some a) ∧
    (∀ t ∈ DATA_SAMPLE_FORMAT_ITEMS.map Prod.snd,
        (SEG_Y_TYPE_TO_DATA_SAMPLE_FORMAT t).bind DATA_SAMPLE_FORMAT_TO_SEG_Y_TYPE = some t) := by
  decide

/-- Counterexample for C4: it is false that every registered internal type
name has a single-character wire tag. -/
theorem ctype_tag_not_always_single_char :
    (INTERNAL_TYPE_NAMES.all
      (fun t => ((SEG_Y_TYPE_TO_CTYPE t).getD "").length == 1)) = false := by
  decide

/-- Claim C4 (amended): every internal type name other than `ibm` has a
single-character wire tag; the tag associated with `ibm` is the
three-character string "ibm". -/
theorem ctype_tag_single_char_except_ibm :
    (∀ t ∈ INTERNAL_TYPE_NAMES, t ≠ "ibm" →
       ((SEG_Y_TYPE_TO_CTYPE t).getD "").length = 1) ∧
    SEG_Y_TYPE_TO_CTYPE "ibm" = some "ibm" ∧ String.length "ibm" = 3 := by
  decide

/-- Claim C8: the `ranges` strategy defaults `min_size` to zero, fails with
an Invalid-Argument condition whenever a configured maximum length is less
than the (possibly defaulted) minimum length, and never produces a range
whose step is zero (the drawn step passes the assume(step != 0) filter and
becomes the step of the produced range). -/
theorem ranges_generator_spec :
    ranges_min_size none = 0 ∧
    (∀ mn : Option Int, ∀ mx : Int, mx < ranges_min_size mn →
      ∃ e, ranges_validate mn (some mx) = Except.error e) ∧
    (∀ start step len : Int, step ≠ 0 → (ranges_result start step len).step ≠ 0) := by
  refine ⟨rfl, ?_, ?_⟩
  · intro mn mx h
    by_cases hm : ranges_min_size mn < 0
    · exact ⟨"min_size for ranges() is negative", by simp [ranges_validate, hm]⟩
    · exact ⟨"max_size for ranges() is less than min_size", by simp [ranges_validate, hm, h]⟩
  · intro start step len h
    simpa [ranges_result] using h

/-- Witness for C8: the validation rejects max_size = -1 against the
defaulted min_size = 0, and a produced range carries its nonzero step. -/
theorem ranges_generator_spec_witness :
    (∃ e, ranges_validate none (some (-1)) = Except.error e) ∧
    (ranges_result 0 2 3).step ≠ 0 :=
  ⟨ranges_generator_spec.2.1 none (-1) (by decide),
   ranges_generator_spec.2.2 0 2 3 (by decide)⟩

/-- Claim C2 is violated by the code: with min_num_lines = max_num_lines = 1
and the legal draws n = 1, xs = [32], the produced string consists of 32 NUL
characters.  `bytes(x)` for a drawn integer `x` yields `x` zero bytes, not a
line of printable characters, contradicting the function's own docstring and
the claim that every character has a code point between 32 and 126. -/
theorem multiline_text_emits_nul_characters :
    ((1 : Nat) ≤ 1 ∧ 1 ≤ 1) ∧
    ([32].length = 1 ∧ ([32].all (fun x : Nat => decide (32 ≤ x) && decide (x ≤ 127))) = true) ∧
    multiline_ascii_encodable_text [32] = List.replicate 32 0 ∧
    ((multiline_ascii_encodable_text [32]).all
      (fun c => decide (32 ≤ c) && decide (c ≤ 126))) = false := by
  decide

/-- The element list of a Python range has length len(range). -/
theorem PyRange.toList_length (r : PyRange) : r.toList.length = r.size := by
  unfold PyRange.toList
  rw [List.length_map, List.length_range]

/-- A range produced by the `ranges` strategy with a positive step and a
non-negative drawn length has exactly that many elements. -/
theorem ranges_result_size (start step len : Int) (hs : 1 ≤ step) :
    (ranges_result start step len).size = len.toNat := by
  have hstep : (0 : Int) < step := by omega
  have hne : step ≠ 0 := by omega
  simp only [ranges_result, PyRange.size, hstep, if_pos]
  have h1 : start + step * len - start + step - 1 = (step - 1) + step * len := by ring
  rw [h1, Int.add_mul_ediv_left _ _ hne,
    Int.ediv_eq_zero_of_lt (by omega) (by omega), zero_add]

/-- A range produced with positive step and positive drawn length is
non-empty. -/
theorem ranges_result_toList_ne_nil (start step len : Int) (hs : 1 ≤ step) (hl : 1 ≤ len) :
    (ranges_result start step len).toList ≠ [] := by
  have hsz := ranges_result_size start step len hs
  have h2 : (ranges_result start step len).toList.length = len.toNat := by
    rw [PyRange.toList_length, hsz]
  intro hn
  rw [hn] at h2
  simp only [List.length_nil] at h2
  omega

/-- The Cartesian product list has the product of the lengths. -/
theorem productList_length {α β : Type} (xs : List α) (ys : List β) :
    (productList xs ys).length = xs.length * ys.length := by
  induction xs with
  | nil => simp [productList]
  | cons x xs ih => simp [productList, ih]; ring

/-- Claim C3 (amended): every value produced by items2d contains two
non-empty stepped ranges whose steps are positive — at least 1, not
necessarily exactly 1 — together with an items mapping whose key list is
exactly the full Cartesian product of the two ranges, each key paired with
an integer value. -/
theorem items2d_spec (iSize jSize iStart iStep iLen jStart jStep jLen : Int)
    (values : List Int)
    (hiL : 1 ≤ iLen) (hiU : iLen ≤ iSize) (hiS : 1 ≤ iStep)
    (hjL : 1 ≤ jLen) (hjU : jLen ≤ jSize) (hjS : 1 ≤ jStep)
    (hv : values.length =
      (ranges_result iStart iStep iLen).size * (ranges_result jStart jStep jLen).size) :
    (items2d iStart iStep iLen jStart jStep jLen values).i_range.toList ≠ [] ∧
    1 ≤ (items2d iStart iStep iLen jStart jStep jLen values).i_range.step ∧
    (items2d iStart iStep iLen jStart jStep jLen values).j_range.toList ≠ [] ∧
    1 ≤ (items2d iStart iStep iLen jStart jStep jLen values).j_range.step ∧
    (items2d iStart iStep iLen jStart jStep jLen values).items.map Prod.fst =
      productList (items2d iStart iStep iLen jStart jStep jLen values).i_range.toList
        (items2d iStart iStep iLen jStart jStep jLen values).j_range.toList := by
  refine ⟨ranges_result_toList_ne_nil _ _ _ hiS hiL, hiS,
    ranges_result_toList_ne_nil _ _ _ hjS hjL, hjS, ?_⟩
  apply List.map_fst_zip
  rw [productList_length, PyRange.toList_length, PyRange.toList_length, hv]

/-- Witness for C3: a concrete legal draw, with the items keyed by the full
product of the two ranges. -/
theorem items2d_spec_witness :
    (items2d 0 2 1 0 1 1 [7]).items.map Prod.fst =
      productList (items2d 0 2 1 0 1 1 [7]).i_range.toList
        (items2d 0 2 1 0 1 1 [7]).j_range.toList :=
  (items2d_spec 1 1 0 2 1 0 1 1 [7] (by decide) (by decide) (by decide)
    (by decide) (by decide) (by decide) (by decide)).2.2.2.2

/-- Counterexample for C3: the step of each range inside items2d is drawn
from integers(min_value=1), which permits values above 1.  With
i_size = j_size = 1 the draws start=0, length=1, step=2 are all legal and
produce an i_range whose step is 2, refuting "step exactly 1". -/
theorem items2d_step_two :
    (1 : Int) ≤ 2 ∧
    [7].length = ((ranges_result 0 2 1).size * (ranges_result 0 1 1).size) ∧
    (items2d 0 2 1 0 1 1 [7]).i_range.step = 2 := by
  decide

/-- Accumulation preserves the number of draws. -/
theorem accFrom_length (a : Int) (l : List Int) : (accFrom a l).length = l.length := by
  induction l generalizing a with
  | nil => rfl
  | cons x xs ih => simp [accFrom, ih]

/-- Breakpoints accumulated from non-negative draws are non-decreasing,
starting from the seed. -/
theorem accFrom_chain (a : Int) (l : List Int) (h : ∀ d ∈ l, 0 ≤ d) :
    List.Chain' (· ≤ ·) (a :: accFrom a l) := by
  induction l generalizing a with
  | nil =>
    show List.Chain' (· ≤ ·) [a]
    simp
  | cons x xs ih =>
    have hx : 0 ≤ x := h x (by simp)
    have ht := ih (a + x) (fun d hd => h d (by simp [hd]))
    show List.Chain' (· ≤ ·) (a :: (a + x) :: accFrom (a + x) xs)
    exact List.chain'_cons.mpr ⟨by omega, ht⟩

/-- Splitting a list in twos after a cons-cons. -/
theorem batched_two_cons {α : Type} (a b : α) (rest : List α) :
    batched (a :: b :: rest) 2 = [a, b] :: batched rest 2 := by
  simp [batched]

/-- Pairing 2*n non-decreasing breakpoints in twos yields n ranges, each
well-formed with unit step, pairwise disjoint and ordered; the first range
starts at the first breakpoint. -/
theorem batched_pairs_spec : ∀ (n : Nat) (l : List Int), l.length = 2 * n →
    List.Chain' (· ≤ ·) l →
    ((batched l 2).map pairToRange).length = n ∧
    (∀ r ∈ (batched l 2).map pairToRange, r.start ≤ r.stop ∧ r.step = 1) ∧
    List.Chain' (fun r r' : PyRange => r.stop ≤ r'.start) ((batched l 2).map pairToRange) ∧
    ((batched l 2).map pairToRange).head?.map PyRange.start = l.head? := by
  intro n
  induction n with
  | zero =>
    intro l hl _
    have hnil : l = [] := List.eq_nil_of_length_eq_zero (by omega)
    subst hnil
    simp [batched]
  | succ n ih =>
    intro l hl hc
    cases l with
    | nil => simp only [List.length_nil] at hl; omega
    | cons a l1 =>
      cases l1 with
      | nil => simp only [List.length_cons, List.length_nil] at hl; omega
      | cons b rest =>
        have hrest : rest.length = 2 * n := by
          simp only [List.length_cons] at hl; omega
        have hab : a ≤ b := (List.chain'_cons.mp hc).1
        have hbc : List.Chain' (· ≤ ·) (b :: rest) := (List.chain'_cons.mp hc).2
        have hbhead : ∀ y ∈ rest.head?, b ≤ y := (List.chain'_cons'.mp hbc).1
        have hcr : List.Chain' (· ≤ ·) rest := (List.chain'_cons'.mp hbc).2
        obtain ⟨ihlen, ihmem, ihchain, ihhead⟩ := ih rest hrest hcr
        rw [batched_two_cons]
        simp only [List.map_cons]
        refine ⟨by simp [ihlen], ?_, ?_, ?_⟩
        · intro r hr
          rcases List.mem_cons.mp hr with h | h
          · subst h
            exact ⟨hab, rfl⟩
          · exact ihmem r h
        · refine List.chain'_cons'.mpr ⟨?_, ihchain⟩
          intro r hr
          have : ((batched rest 2).map pairToRange).head? = some r := hr
          rw [this] at ihhead
          simp only [Option.map_some'] at ihhead
          have hstart : r.start ∈ rest.head? := by
            rw [← ihhead]; rfl
          exact hbhead r.start hstart
        · rfl

/-- Claim C9: with non-negative interval bounds, spaced_ranges produces
between min_num_ranges and max_num_ranges ranges, pairwise disjoint and in
increasing order: every range is well-formed and each range's start is at
least the previous range's stop. -/
theorem spaced_ranges_spec (minN maxN minI maxI : Int) (n : Nat) (draws : List Int)
    (hn1 : minN ≤ (n : Int)) (hn2 : (n : Int) ≤ maxN)
    (hlen : draws.length = 2 * n)
    (hdraws : ∀ d ∈ draws, minI ≤ d ∧ d ≤ maxI)
    (hI : 0 ≤ minI) :
    (minN ≤ ((spaced_ranges draws).length : Int) ∧
      ((spaced_ranges draws).length : Int) ≤ maxN) ∧
    (∀ r ∈ spaced_ranges draws, r.start ≤ r.stop ∧ r.step = 1) ∧
    List.Chain' (fun r r' : PyRange => r.stop ≤ r'.start) (spaced_ranges draws) := by
  have hpos : ∀ d ∈ draws, 0 ≤ d := fun d hd => le_trans hI (hdraws d hd).1
  have hacc : List.Chain' (· ≤ ·) (accumulate draws) :=
    (accFrom_chain 0 draws hpos).tail
  have hlen2 : (accumulate draws).length = 2 * n := by
    rw [accumulate, accFrom_length, hlen]
  obtain ⟨h1, h2, h3, _⟩ := batched_pairs_spec n (accumulate draws) hlen2 hacc
  unfold spaced_ranges
  refine ⟨?_, h2, h3⟩
  rw [h1]
  exact ⟨hn1, hn2⟩

/-- Witness for C9: one drawn configuration (n = 1, draws [1, 2]) and its
produced list of disjoint ranges. -/
theorem spaced_ranges_spec_witness :
    List.Chain' (fun r r' : PyRange => r.stop ≤ r'.start) (spaced_ranges [1, 2]) :=
  (spaced_ranges_spec 1 2 0 5 1 [1, 2] (by decide) (by decide) (by decide)
    (by decide) (by decide)).2.2

/-- Popping returns the first binding of the popped name. -/
theorem popKw_fst (kw : List (String × Int)) (f : String) :
    (popKw kw f).1 = findValue kw f := by
  induction kw with
  | nil => rfl
  | cons p rest ih =>
    obtain ⟨k, v⟩ := p
    by_cases h : k = f <;> simp [popKw, findValue, h, ih]

/-- Removing an absent key changes nothing. -/
theorem removeKey_id (f : String) (kw : List (String × Int))
    (h : f ∉ kw.map Prod.fst) : removeKey f kw = kw := by
  induction kw with
  | nil => rfl
  | cons p rest ih =>
    simp only [List.map_cons, List.mem_cons] at h
    push_neg at h
    simp [removeKey, Ne.symm h.1, ih h.2]

/-- On a duplicate-free keyword dictionary, popping a name removes exactly
its bindings. -/
theorem popKw_snd (kw : List (String × Int)) (f : String)
    (h : (kw.map Prod.fst).Nodup) : (popKw kw f).2 = removeKey f kw := by
  induction kw with
  | nil => rfl
  | cons p rest ih =>
    obtain ⟨k, v⟩ := p
    simp only [List.map_cons, List.nodup_cons] at h
    by_cases hk : k = f
    · subst hk
      simp [popKw, removeKey, removeKey_id k rest h.1]
    · simp [popKw, removeKey, hk, ih h.2]

/-- Membership after a key removal. -/
theorem mem_removeKey (f : String) (kw : List (String × Int)) (p : String × Int) :
    p ∈ removeKey f kw ↔ p ∈ kw ∧ p.1 ≠ f := by
  induction kw with
  | nil => simp [removeKey]
  | cons q rest ih =>
    by_cases hq : q.1 = f
    · rw [removeKey, if_pos hq, ih]
      constructor
      · exact fun h => ⟨List.mem_cons_of_mem q h.1, h.2⟩
      · rintro ⟨hm, hne⟩
        rcases List.mem_cons.mp hm with h | h
        · exact absurd (h ▸ hq) hne
        · exact ⟨h, hne⟩
    · rw [removeKey, if_neg hq]
      constructor
      · intro h
        rcases List.mem_cons.mp h with h | h
        · exact ⟨h ▸ List.mem_cons_self q rest, h ▸ hq⟩
        · exact ⟨List.mem_cons_of_mem q (ih.mp h).1, (ih.mp h).2⟩
      · rintro ⟨hm, hne⟩
        rcases List.mem_cons.mp hm with h | h
        · exact h ▸ List.mem_cons_self q (removeKey f rest)
        · exact List.mem_cons_of_mem q (ih.mpr ⟨h, hne⟩)

/-- Key removal gives a sublist. -/
theorem removeKey_sublist (f : String) (kw : List (String × Int)) :
    (removeKey f kw).Sublist kw := by
  induction kw with
  | nil => simp [removeKey]
  | cons q rest ih =>
    by_cases hq : q.1 = f
    · rw [removeKey, if_pos hq]
      exact ih.cons q
    · rw [removeKey, if_neg hq]
      exact ih.cons₂ q

/-- Key removal preserves the no-duplicate-keys invariant. -/
theorem removeKey_nodup (f : String) (kw : List (String × Int))
    (h : (kw.map Prod.fst).Nodup) : ((removeKey f kw).map Prod.fst).Nodup :=
  ((removeKey_sublist f kw).map Prod.fst).nodup h

/-- Lookup of a different key is unchanged by a key removal. -/
theorem findValue_removeKey (f g : String) (kw : List (String × Int))
    (h : g ≠ f) : findValue (removeKey f kw) g = findValue kw g := by
  induction kw with
  | nil => rfl
  | cons q rest ih =>
    obtain ⟨k, v⟩ := q
    by_cases hk : k = f
    · have hkg : k ≠ g := fun e => h (by rw [← e, hk])
      rw [removeKey, if_pos hk, ih, findValue, if_neg hkg]
    · rw [removeKey, if_neg hk]
      by_cases hg : k = g
      · rw [findValue, if_pos hg, findValue, if_pos hg]
      · rw [findValue, if_neg hg, findValue, if_neg hg, ih]

/-- Membership after removing one key per field name. -/
theorem mem_removeKeys (fs : List String) (kw : List (String × Int)) (p : String × Int) :
    p ∈ removeKeys fs kw ↔ p ∈ kw ∧ p.1 ∉ fs := by
  induction fs generalizing kw with
  | nil => simp [removeKeys]
  | cons f fs ih =>
    rw [removeKeys, ih, mem_removeKey]
    simp only [List.mem_cons]
    tauto

/-- The unpopped keyword arguments left by the header loop are exactly the
bindings whose names are not declared fields. -/
theorem headerLoop_snd (hc : HeaderClass) (fs : List String) (kw : List (String × Int))
    (h : (kw.map Prod.fst).Nodup) :
    (headerLoop hc fs kw).2 = removeKeys fs kw := by
  induction fs generalizing kw with
  | nil => rfl
  | cons f fs ih =>
    have hsnd := popKw_snd kw f h
    have hnodup := removeKey_nodup f kw h
    rw [removeKeys, ← hsnd]
    cases hpop : (popKw kw f).1 <;>
      simp only [headerLoop, hpop] <;>
      rw [ih _ (hsnd ▸ hnodup)]

/-- The strategies assembled by the header loop: each declared field in
order, fixed with just(value) when the caller supplied one, and derived
from its value type otherwise. -/
theorem headerLoop_fst (hc : HeaderClass) (fs : List String) (kw : List (String × Int))
    (hkw : (kw.map Prod.fst).Nodup) (hfs : fs.Nodup) :
    (headerLoop hc fs kw).1 = fs.map (fun f =>
      (f, match findValue kw f with
          | some v => FieldStrat.just v
          | none => strategyForType (hc.value_type f))) := by
  induction fs generalizing kw with
  | nil => rfl
  | cons f fs ih =>
    have hff : f ∉ fs := (List.nodup_cons.mp hfs).1
    have hfs2 : fs.Nodup := (List.nodup_cons.mp hfs).2
    have hsnd := popKw_snd kw f hkw
    have hfstv := popKw_fst kw f
    have hnodup2 : ((removeKey f kw).map Prod.fst).Nodup := removeKey_nodup f kw hkw
    have hcongr : fs.map (fun g =>
        (g, match findValue (removeKey f kw) g with
            | some v => FieldStrat.just v
            | none => strategyForType (hc.value_type g))) =
      fs.map (fun g =>
        (g, match findValue kw g with
            | some v => FieldStrat.just v
            | none => strategyForType (hc.value_type g))) := by
      apply List.map_congr_left
      intro g hg
      have hgf : g ≠ f := fun e => hff (e ▸ hg)
      rw [findValue_removeKey f g kw hgf]
    cases hv : findValue kw f with
    | some v =>
      have hpop : (popKw kw f).1 = some v := by rw [hfstv, hv]
      simp only [headerLoop, hpop, hsnd, List.map_cons, hv]
      rw [ih _ hnodup2, hcongr]
      exact hfs2
    | none =>
      have hpop : (popKw kw f).1 = none := by rw [hfstv, hv]
      simp only [headerLoop, hpop, hsnd, List.map_cons, hv]
      rw [ih _ hnodup2, hcongr]
      exact hfs2

/-- Claim C7: the header-object generator fails with a Type-Error condition
exactly when some supplied keyword argument names a field the header class
does not declare; when every supplied name is declared, it succeeds and
fixes exactly the supplied fields to their supplied values, deriving every
other field's strategy from its value type. -/
theorem header_spec (hc : HeaderClass) (kwargs : List (String × Int))
    (hk : (kwargs.map Prod.fst).Nodup) (hf : hc.ordered_field_names.Nodup) :
    ((∃ e, header hc kwargs = Except.error e) ↔
      ∃ p ∈ kwargs, p.1 ∉ hc.ordered_field_names) ∧
    ((∀ p ∈ kwargs, p.1 ∈ hc.ordered_field_names) →
      header hc kwargs = Except.ok (hc.ordered_field_names.map (fun f =>
        (f, match findValue kwargs f with
            | some v => FieldStrat.just v
            | none => strategyForType (hc.value_type f))))) := by
  have hsnd := headerLoop_snd hc hc.ordered_field_names kwargs hk
  constructor
  · constructor
    · rintro ⟨e, he⟩
      by_contra hno
      push_neg at hno
      have hempty : removeKeys hc.ordered_field_names kwargs = [] := by
        apply List.eq_nil_iff_forall_not_mem.mpr
        intro p hp
        have hmk := (mem_removeKeys _ _ _).mp hp
        exact hmk.2 (hno p hmk.1)
      simp only [header, hsnd, hempty, List.isEmpty_nil, if_true] at he
      exact Except.noConfusion he
    · rintro ⟨p, hp, hnp⟩
      have hmem : p ∈ removeKeys hc.ordered_field_names kwargs :=
        (mem_removeKeys _ _ _).mpr ⟨hp, hnp⟩
      have hne : removeKeys hc.ordered_field_names kwargs ≠ [] := by
        intro h
        rw [h] at hmem
        exact List.not_mem_nil p hmem
      have hfalse : (removeKeys hc.ordered_field_names kwargs).isEmpty = false := by
        cases hrk : removeKeys hc.ordered_field_names kwargs with
        | nil => exact absurd hrk hne
        | cons q rest => rfl
      refine ⟨"Unrecognised binary header field names " ++ String.intercalate ", "
        ((removeKeys hc.ordered_field_names kwargs).map Prod.fst), ?_⟩
      simp only [header, hsnd, hfalse, Bool.false_eq_true, if_false]
  · intro hall
    have hempty : removeKeys hc.ordered_field_names kwargs = [] := by
      apply List.eq_nil_iff_forall_not_mem.mpr
      intro p hp
      have hmk := (mem_removeKeys _ _ _).mp hp
      exact hmk.2 (hall p hmk.1)
    simp only [header, hsnd, hempty, List.isEmpty_nil, if_true]
    rw [headerLoop_fst hc _ kwargs hk hf]

/-- Witness for C7: a keyword argument naming an undeclared field makes the
generator fail. -/
theorem header_spec_witness :
    ∃ e, header sampleHeaderClass [("bogus", 1)] = Except.error e :=
  (header_spec sampleHeaderClass [("bogus", 1)] (by decide) (by decide)).1.mpr
    ⟨("bogus", 1), by decide, by decide⟩

/-- The key set after one dict assignment. -/
theorem dictInsert_mem_keys {β : Type} (d : List (String × β)) (k x : String) (v : β) :
    x ∈ (dictInsert d k v).map Prod.fst ↔ x ∈ d.map Prod.fst ∨ x = k := by
  induction d with
  | nil => simp [dictInsert]
  | cons p rest ih =>
    by_cases hp : p.1 = k
    · rw [dictInsert, if_pos hp]
      subst hp
      simp only [List.map_cons, List.mem_cons]
      tauto
    · rw [dictInsert, if_neg hp]
      simp only [List.map_cons, List.mem_cons, ih]
      tauto

/-- A dict assignment binds the assigned key to the assigned value. -/
theorem dictInsert_findValue_self {β : Type} (d : List (String × β)) (k : String) (v : β) :
    findValue (dictInsert d k v) k = some v := by
  induction d with
  | nil =>
    show findValue [(k, v)] k = some v
    rw [findValue, if_pos rfl]
  | cons p rest ih =>
    obtain ⟨a, b⟩ := p
    by_cases hp : a = k
    · rw [dictInsert, if_pos hp, findValue, if_pos rfl]
    · rw [dictInsert, if_neg hp, findValue, if_neg hp, ih]

/-- A dict assignment leaves every other key's binding unchanged. -/
theorem dictInsert_findValue_ne {β : Type} (d : List (String × β)) (k x : String) (v : β)
    (hx : x ≠ k) : findValue (dictInsert d k v) x = findValue d x := by
  induction d with
  | nil =>
    show findValue [(k, v)] x = none
    rw [findValue, if_neg (fun e => hx e.symm)]
    rfl
  | cons p rest ih =>
    obtain ⟨a, b⟩ := p
    by_cases hp : a = k
    · have hax : ¬a = x := fun e => hx (by rw [← e]; exact hp)
      rw [dictInsert, if_pos hp, findValue, if_neg (fun e => hx e.symm), findValue, if_neg hax]
    · rw [dictInsert, if_neg hp]
      by_cases hax : a = x
      · rw [findValue, if_pos hax, findValue, if_pos hax]
      · rw [findValue, if_neg hax, findValue, if_neg hax, ih]

/-- The key set accumulated by the override fold. -/
theorem foldl_dictInsert_keys (ov : List (String × String))
    (d : List (String × StrStrategy)) (x : String) :
    (x ∈ ((ov.foldl (fun d p => dictInsert d p.1 (StrStrategy.just p.2)) d).map Prod.fst)) ↔
      x ∈ d.map Prod.fst ∨ x ∈ ov.map Prod.fst := by
  induction ov generalizing d with
  | nil => simp
  | cons q ov ih =>
    rw [List.foldl_cons, ih, dictInsert_mem_keys]
    simp only [List.map_cons, List.mem_cons]
    tauto

/-- Keys not overridden keep their binding through the override fold. -/
theorem foldl_dictInsert_untouched (ov : List (String × String))
    (d : List (String × StrStrategy)) (x : String) (hx : x ∉ ov.map Prod.fst) :
    findValue (ov.foldl (fun d p => dictInsert d p.1 (StrStrategy.just p.2)) d) x =
      findValue d x := by
  induction ov generalizing d with
  | nil => rfl
  | cons q ov ih =>
    simp only [List.map_cons, List.mem_cons] at hx
    push_neg at hx
    rw [List.foldl_cons, ih _ hx.2, dictInsert_findValue_ne _ _ _ _ hx.1]

/-- Every override ends up bound to just(its value). -/
theorem foldl_dictInsert_override (ov : List (String × String))
    (d : List (String × StrStrategy)) (ho : (ov.map Prod.fst).Nodup) :
    ∀ p ∈ ov, findValue (ov.foldl (fun d p => dictInsert d p.1 (StrStrategy.just p.2)) d) p.1 =
      some (StrStrategy.just p.2) := by
  induction ov generalizing d with
  | nil => exact fun p hp => absurd hp (List.not_mem_nil p)
  | cons q ov ih =>
    simp only [List.map_cons, List.nodup_cons] at ho
    intro p hp
    rcases List.mem_cons.mp hp with h | h
    · subst h
      rw [List.foldl_cons, foldl_dictInsert_untouched _ _ _ ho.1, dictInsert_findValue_self]
    · exact ih _ ho.2 p h

/-- In the initial dict every supplied key maps to the printable-alphabet
text strategy. -/
theorem findValue_text_init (keys : List String) (k : String) (hk : k ∈ keys) :
    findValue (keys.map (fun k' => (k', StrStrategy.text PRINTABLE_ASCII_ALPHABET))) k =
      some (StrStrategy.text PRINTABLE_ASCII_ALPHABET) := by
  induction keys with
  | nil => exact absurd hk (List.not_mem_nil k)
  | cons k0 rest ih =>
    by_cases h0 : k0 = k
    · rw [List.map_cons, findValue, if_pos h0]
    · rw [List.map_cons, findValue, if_neg h0]
      exact ih ((List.mem_cons.mp hk).resolve_left (fun e => h0 e.symm))

/-- Claim C10: the dictionary produced by fixed_dict_of_printable_strings
has as keys exactly the supplied key list united with the override names;
an override whose name is not in the key list is accepted without error and
appears bound to just(its value), as does every overridden key; and every
non-overridden key is bound to the text strategy over the printable-ASCII
alphabet. -/
theorem fixed_dict_of_printable_strings_spec (keys : List String)
    (overrides : List (String × String)) (ho : (overrides.map Prod.fst).Nodup) :
    (∀ x, x ∈ (fixed_dict_of_printable_strings keys overrides).map Prod.fst ↔
      (x ∈ keys ∨ x ∈ overrides.map Prod.fst)) ∧
    (∀ p ∈ overrides, findValue (fixed_dict_of_printable_strings keys overrides) p.1 =
      some (StrStrategy.just p.2)) ∧
    (∀ k ∈ keys, k ∉ overrides.map Prod.fst →
      findValue (fixed_dict_of_printable_strings keys overrides) k =
        some (StrStrategy.text PRINTABLE_ASCII_ALPHABET)) := by
  refine ⟨?_, foldl_dictInsert_override overrides _ ho, ?_⟩
  · intro x
    rw [fixed_dict_of_printable_strings, foldl_dictInsert_keys]
    constructor
    · rintro (h | h)
      · left
        obtain ⟨p, hp, hpx⟩ := List.mem_map.mp h
        obtain ⟨k', hk', he⟩ := List.mem_map.mp hp
        rw [← hpx, ← he]
        exact hk'
      · exact Or.inr h
    · rintro (h | h)
      · exact Or.inl (List.mem_map.mpr
          ⟨(x, StrStrategy.text PRINTABLE_ASCII_ALPHABET),
            List.mem_map.mpr ⟨x, h, rfl⟩, rfl⟩)
      · exact Or.inr h
  · intro k hk hnk
    rw [fixed_dict_of_printable_strings, foldl_dictInsert_untouched _ _ _ hnk,
      findValue_text_init keys k hk]

/-- Witness for C10: an override whose name is not among the supplied keys
is accepted and bound to its fixed value. -/
theorem fixed_dict_of_printable_strings_spec_witness :
    findValue (fixed_dict_of_printable_strings ["a"] [("b", "V")]) "b" =
      some (StrStrategy.just "V") :=
  (fixed_dict_of_printable_strings_spec ["a"] [("b", "V")] (by decide)).2.1
    ("b", "V") (by decide)

/-- Index arithmetic recovers the position of every progression element. -/
theorem apIndex_at (start step : Int) (count : Nat) (i : Nat)
    (ht : step ≠ 0) (hi : i < count) :
    apIndex start step count (start + step * Int.ofNat i) = some i := by
  have hq : (start + step * Int.ofNat i - start) / step = Int.ofNat i := by
    rw [add_sub_cancel_left, Int.mul_ediv_cancel_left _ ht]
  have hcond : 0 ≤ (start + step * Int.ofNat i - start) / step ∧
      (start + step * Int.ofNat i - start) / step < (count : Int) ∧
      start + step * ((start + step * Int.ofNat i - start) / step) =
        start + step * Int.ofNat i := by
    rw [hq]
    exact ⟨Int.ofNat_nonneg i, Int.ofNat_lt.mpr hi, rfl⟩
  rw [apIndex, if_neg ht, if_pos hcond, hq]
  simp

/-- A dense value list answers every index below its length. -/
theorem nthOpt_isSome (l : List Int) (i : Nat) (h : i < l.length) :
    ∃ x, nthOpt l i = some x := by
  induction l generalizing i with
  | nil => simp at h
  | cons x xs ih =>
    cases i with
    | zero => exact ⟨x, rfl⟩
    | succ n => exact ih n (by simpa using h)

/-- Membership in the Cartesian product list. -/
theorem mem_productList {α β : Type} (xs : List α) (ys : List β) (p : α × β) :
    p ∈ productList xs ys ↔ p.1 ∈ xs ∧ p.2 ∈ ys := by
  induction xs with
  | nil => simp [productList]
  | cons x xs ih =>
    simp only [productList, List.mem_append, List.mem_map, List.mem_cons, ih]
    constructor
    · rintro (⟨y, hy, rfl⟩ | ⟨h1, h2⟩)
      · exact ⟨Or.inl rfl, hy⟩
      · exact ⟨Or.inr h1, h2⟩
    · rintro ⟨h1 | h1, h2⟩
      · left
        refine ⟨p.2, h2, ?_⟩
        rw [← h1]
      · exact Or.inr ⟨h1, h2⟩

/-- First-match lookup recovers every pair of a duplicate-free-keys list. -/
theorem findValue_mem_nodup {α β : Type} [DecidableEq α] (l : List (α × β)) (p : α × β)
    (h : (l.map Prod.fst).Nodup) (hp : p ∈ l) : findValue l p.1 = some p.2 := by
  induction l with
  | nil => exact absurd hp (List.not_mem_nil p)
  | cons q rest ih =>
    obtain ⟨a, b⟩ := q
    simp only [List.map_cons, List.nodup_cons] at h
    rcases List.mem_cons.mp hp with rfl | hm
    · rw [findValue, if_pos rfl]
    · have hne : a ≠ p.1 := fun e => h.1 (e ▸ List.mem_map.mpr ⟨p, hm, rfl⟩)
      rw [findValue, if_neg hne, ih h.2 hm]

/-- Every pair a well-formed representation enumerates is reproduced by its
own lookup. -/
theorem catalogItems_conform (c : Catalog) (h : catalogWellFormed c = true) :
    ∀ p ∈ catalogItems c, catalogLookup c p.1 = some p.2 := by
  intro p hp
  cases c with
  | constantOverRange s t n v =>
    simp only [catalogWellFormed, bne_iff_ne, ne_eq] at h
    simp only [catalogItems, apList, List.map_map, List.mem_map, List.mem_range] at hp
    obtain ⟨i, hi, rfl⟩ := hp
    simp only [Function.comp_apply, catalogLookup, apIndex_at s t n i h hi, Option.map_some']
  | regularValues s t n vs =>
    simp only [catalogWellFormed, Bool.and_eq_true, bne_iff_ne, ne_eq, beq_iff_eq] at h
    simp only [catalogItems, List.mem_map, List.mem_range] at hp
    obtain ⟨i, hi, rfl⟩ := hp
    obtain ⟨x, hx⟩ := nthOpt_isSome vs i (by rw [h.2]; exact hi)
    simp only [catalogLookup, apIndex_at s t n i h.1 hi, hx, Option.getD_some,
      Option.some_bind]
  | linearRegular ks kt v0 vt n =>
    simp only [catalogWellFormed, bne_iff_ne, ne_eq] at h
    simp only [catalogItems, List.mem_map, List.mem_range] at hp
    obtain ⟨i, hi, rfl⟩ := hp
    simp only [catalogLookup, apIndex_at ks kt n i h hi, Option.map_some']
  | linearRegular2d s0 t0 n0 s1 t1 n1 a b c =>
    simp only [catalogWellFormed, Bool.and_eq_true, bne_iff_ne, ne_eq] at h
    simp only [catalogItems, List.mem_map] at hp
    obtain ⟨q, hq, rfl⟩ := hp
    obtain ⟨hq1, hq2⟩ := (mem_productList _ _ q).mp hq
    simp only [apList, List.mem_map, List.mem_range] at hq1 hq2
    obtain ⟨x, hx, he1⟩ := hq1
    obtain ⟨y, hy, he2⟩ := hq2
    simp only [catalogLookup, ← he1, ← he2, apIndex_at s0 t0 n0 x h.1 hx,
      apIndex_at s1 t1 n1 y h.2 hy]
  | dictionary es =>
    simp only [catalogWellFormed, decide_eq_true_eq] at h
    exact findValue_mem_nodup es p h hp

/-- Two pair lists whose values are determined by one lookup function and
whose key multisets agree are equal as multisets. -/
theorem multiset_eq_of_lookup (l1 l2 : List (CatKey × Int)) (g : CatKey → Option Int)
    (h1 : ∀ p ∈ l1, g p.1 = some p.2) (h2 : ∀ p ∈ l2, g p.1 = some p.2)
    (hk : Multiset.ofList (l1.map Prod.fst) = Multiset.ofList (l2.map Prod.fst)) :
    Multiset.ofList l1 = Multiset.ofList l2 := by
  have hself : ∀ l : List (CatKey × Int), (∀ p ∈ l, g p.1 = some p.2) →
      l.map (fun p => (p.1, (g p.1).getD 0)) = l := by
    intro l hl
    have hcg : ∀ p ∈ l, (fun p : CatKey × Int => (p.1, (g p.1).getD 0)) p = id p := by
      intro p hp
      simp [hl p hp]
    rw [List.map_congr_left hcg, List.map_id]
  calc Multiset.ofList l1
      = Multiset.ofList (l1.map (fun p => (p.1, (g p.1).getD 0))) := by rw [hself l1 h1]
    _ = Multiset.ofList ((l1.map Prod.fst).map (fun k => (k, (g k).getD 0))) := by
        rw [List.map_map]; rfl
    _ = Multiset.map (fun k => (k, (g k).getD 0)) (Multiset.ofList (l1.map Prod.fst)) := rfl
    _ = Multiset.map (fun k => (k, (g k).getD 0)) (Multiset.ofList (l2.map Prod.fst)) := by
        rw [hk]
    _ = Multiset.ofList ((l2.map Prod.fst).map (fun k => (k, (g k).getD 0))) := rfl
    _ = Multiset.ofList (l2.map (fun p => (p.1, (g p.1).getD 0))) := by
        rw [List.map_map]; rfl
    _ = Multiset.ofList l2 := by rw [hself l2 h2]

/-- Claim C1: building a Catalog from any finite mapping with distinct
integer or integer-pair keys yields (a) a lookup agreeing with the mapping
on every key present, and (b) an enumeration of exactly the mapping's
pairs, with no missing, extra, or duplicated pair (multiset equality). -/
theorem catalog_roundtrip (m : List (CatKey × Int)) (hm : (m.map Prod.fst).Nodup) :
    (∀ p ∈ m, catalogLookup (CatalogBuilder.create m) p.1 = some p.2) ∧
    Multiset.ofList (catalogItems (CatalogBuilder.create m)) = Multiset.ofList m := by
  unfold CatalogBuilder.create
  cases hf : [candConstant m, candLinear m, candRegular m, candLinear2d m].find?
      (fun c => conforms c m) with
  | none =>
    refine ⟨?_, rfl⟩
    intro p hp
    exact findValue_mem_nodup m p hm hp
  | some c =>
    have hc : conforms c m = true := by
      have h2 := List.find?_some hf
      simpa using h2
    simp only [conforms, Bool.and_eq_true, List.all_eq_true, decide_eq_true_eq,
      beq_iff_eq] at hc
    obtain ⟨⟨hwf, hlook⟩, hkeys⟩ := hc
    exact ⟨hlook, multiset_eq_of_lookup (catalogItems c) m (catalogLookup c)
      (catalogItems_conform c hwf) hlook hkeys⟩

/-- Witness for C1: a concrete two-pair mapping round-trips through the
built Catalog. -/
theorem catalog_roundtrip_witness :
    (∀ p ∈ ([(CatKey.ik 0, 5), (CatKey.ik 2, 7)] : List (CatKey × Int)),
      catalogLookup (CatalogBuilder.create [(CatKey.ik 0, 5), (CatKey.ik 2, 7)]) p.1 =
        some p.2) ∧
    Multiset.ofList (catalogItems (CatalogBuilder.create
      [(CatKey.ik 0, 5), (CatKey.ik 2, 7)])) =
      Multiset.ofList [(CatKey.ik 0, 5), (CatKey.ik 2, 7)] :=
  catalog_roundtrip [(CatKey.ik 0, 5), (CatKey.ik 2, 7)] (by decide)
